import Mathlib

/-
Verification of the csv-tools streaming CSV utilities.

The source operates on decoded text: every chunk delivered by the reader is
passed through a streaming `TextDecoder`, whose concatenation property
(decoding chunk-by-chunk yields the concatenation of the decoded text, even
when a multi-byte character is split across a chunk boundary) is an external
capability per the specification.  We therefore embed the pipelines over
decoded chunks, each a `List Char`; the logical content of a stream is the
concatenation (`List.flatten`) of its chunks.
-/

namespace CsvTools

/-- Whitespace as recognised by the JavaScript `String.prototype.trim`:
the ECMAScript WhiteSpace code points (TAB, VT, FF, SP, NBSP, ZWNBSP and the
Unicode space separators) together with the LineTerminator code points
(LF, CR, LS, PS). -/
def isJsWhitespace (c : Char) : Bool :=
  let n := c.toNat
  n = 0x9 || n = 0xA || n = 0xB || n = 0xC || n = 0xD || n = 0x20 ||
  n = 0xA0 || n = 0x1680 || (0x2000 ≤ n && n ≤ 0x200A) ||
  n = 0x2028 || n = 0x2029 || n = 0x202F || n = 0x205F || n = 0x3000 ||
  n = 0xFEFF

/-- The JS `line.trim()`: remove leading and trailing JS whitespace. -/
def trim (l : List Char) : List Char :=
  ((l.dropWhile isJsWhitespace).reverse.dropWhile isJsWhitespace).reverse

/-- Helper for `splitLines`: prepend a non-newline character to the first
complete line if one exists, otherwise to the leftover buffer. -/
def consLine (c : Char) : List (List Char) × List Char → List (List Char) × List Char
  | ([], buf) => ([], c :: buf)
  | (l :: ls, buf) => ((c :: l) :: ls, buf)

/-- The newline-scanning loop of both pipelines
(`while ((newlineIndex = buffer.indexOf("\n")) !== -1) ...`):
splits a buffer into the complete lines before each `"\n"` together with
the leftover text after the last `"\n"`. -/
def splitLines : List Char → List (List Char) × List Char
  | [] => ([], [])
  | c :: rest =>
    if c = '\n' then ([] :: (splitLines rest).1, (splitLines rest).2)
    else consLine c (splitLines rest)

/-- The final line produced by the end-of-input flush: the leftover buffer is
one extra line exactly when it is non-empty (`buffer.length > 0`). -/
def flushLines (b : List Char) : List (List Char) :=
  if b.isEmpty then [] else [b]

/-- All logical lines of a content string: the complete newline-terminated
lines followed by the flushed trailing line, if any. -/
def logicalLines (content : List Char) : List (List Char) :=
  (splitLines content).1 ++ flushLines (splitLines content).2

/-- A line is retained by a pipeline iff its trimmed form is non-blank or the
relevant option (`countEmptyRows` / `includeEmptyRows`) is set:
the shared condition `!isEmpty || option`. -/
def kept (opt : Bool) (l : List Char) : Bool :=
  !(trim l).isEmpty || opt

/-- The trimmed retained lines of a line list. -/
def keptTrim (opt : Bool) (ls : List (List Char)) : List (List Char) :=
  (ls.filter (kept opt)).map trim

/-- The trimmed retained logical lines of a chunked input, for a given
blank-line option.  The head of this list is the header slot; its tail are
the rows processed after the header slot is filled. -/
def keptRows (cs : List (List Char)) (opt : Bool) : List (List Char) :=
  keptTrim opt (logicalLines cs.flatten)

/-- One step of the shared incremental line framer: append the decoded chunk
to the carried buffer, extract every complete line, and fold the consumer
over the extracted lines (`buffer += decoder.decode(value, {stream: true})`
followed by the newline-scanning loop). -/
def framerStep {σ : Type} (f : σ → List Char → σ) (st : List Char × σ)
    (c : List Char) : List Char × σ :=
  ((splitLines (st.1 ++ c)).2, (splitLines (st.1 ++ c)).1.foldl f st.2)

/-- The per-line body of `countRows` (src/index.js lines 51-64): on
`!isEmpty || countEmptyRows`, the first retained line fills the header slot
and is counted iff `countHeaderRow`; later retained lines are always
counted.  State is `(rowCount, isFirstRow)`. -/
def countLine (chr cer : Bool) (st : Nat × Bool) (line : List Char) : Nat × Bool :=
  if !(trim line).isEmpty || cer then
    if st.2 then ((if chr then st.1 + 1 else st.1), false)
    else (st.1 + 1, st.2)
  else st

/-- The end-of-input flush of `countRows` (src/index.js lines 69-77): a
non-empty leftover buffer is counted when `(!isEmpty || countEmptyRows)` and
`(!isFirstRow || countHeaderRow)`. -/
def countFlush (chr cer : Bool) (st : List Char × Nat × Bool) : Nat :=
  if st.1.length > 0 then
    if !(trim st.1).isEmpty || cer then
      if !st.2.2 || chr then st.2.1 + 1 else st.2.1
    else st.2.1
  else st.2.1

/-- Function `countRows` from src/index.js: consume the chunks delivered by the reader
through the line framer, counting each complete line, then process the
leftover buffer once the stream is exhausted. -/
def countRows (cs : List (List Char)) (chr cer : Bool) : Nat :=
  countFlush chr cer (cs.foldl (framerStep (countLine chr cer)) ([], 0, true))

/-- An emitted mini CSV document, as the header line paired with the grouped
data rows (the source yields the rendered text
`header + "\n" + currentChunk.join("\n")`; see `renderBlock`). -/
abbrev Block := List Char × List (List Char)

/-- State of the chunk grouper: the header once seen (`header`), the rows of
the group under construction (`currentChunk`), and the blocks yielded so
far. -/
abbrev ChunkSt := Option (List Char) × List (List Char) × List Block

/-- The per-line body of `chunk` (src/index.js lines 109-127): skip a blank
line unless `includeEmptyRows`; the first retained line becomes the header;
later retained lines are pushed, and the group is yielded and reset when its
size reaches `chunkSize`. -/
def chunkLine (k : Int) (ier : Bool) (st : ChunkSt) (line : List Char) : ChunkSt :=
  if (trim line).isEmpty && !ier then st
  else
    match st with
    | (none, cur, out) => (some (trim line), cur, out)
    | (some h, cur, out) =>
      let cur' := cur ++ [trim line]
      if (cur'.length : Int) = k then (some h, [], out ++ [(h, cur')])
      else (some h, cur', out)

/-- The end-of-input buffer flush of `chunk` (src/index.js lines 132-144): a
non-empty leftover buffer becomes the header if none was seen, or is pushed
onto the current group, in both cases only when retained. -/
def chunkFlush (ier : Bool) (buf : List Char) (st : ChunkSt) : ChunkSt :=
  if buf.length > 0 then
    match st with
    | (none, cur, out) =>
      ((if !(trim buf).isEmpty || ier then some (trim buf) else none), cur, out)
    | (some h, cur, out) =>
      (some h, (if !(trim buf).isEmpty || ier then cur ++ [trim buf] else cur), out)
  else st

/-- The final yield of `chunk` (src/index.js lines 147-149): the remaining
group is emitted iff it is non-empty and a header exists. -/
def chunkFinal (st : ChunkSt) : List Block :=
  match st with
  | (none, _, out) => out
  | (some h, cur, out) => if cur.length > 0 then out ++ [(h, cur)] else out

/-- Function `chunk` from src/index.js, as the sequence of blocks it yields: consume
the chunks through the line framer with the grouping consumer, flush the
leftover buffer, then emit the final partial group. -/
def chunkBlocks (cs : List (List Char)) (k : Int) (ier : Bool) : List Block :=
  let st := cs.foldl (framerStep (chunkLine k ier)) ([], none, [], [])
  chunkFinal (chunkFlush ier st.1 st.2)

/-- The text actually yielded for one block:
`header + "\n" + currentChunk.join("\n")`. -/
def renderBlock (b : Block) : List Char :=
  b.1 ++ '\n' :: List.intercalate ['\n'] b.2

/-- The sequence of strings yielded by `chunk`. -/
def chunkStrings (cs : List (List Char)) (k : Int) (ier : Bool) : List (List Char) :=
  (chunkBlocks cs k ier).map renderBlock

/-- The loop of `countRows` from the second implementation
(src/unnamed/part_000 lines 23-66): `while (true) { read(); if (done)
{ flush; break } decode-and-split }`, with the flush inlined in the done
branch rather than after the loop. -/
def countRows0Go (chr cer : Bool) : List (List Char) → List Char → Nat × Bool → Nat
  | [], buf, st =>
    if buf.length > 0 then
      if !(trim buf).isEmpty || cer then
        if !st.2 || chr then st.1 + 1 else st.1
      else st.1
    else st.1
  | c :: cs, buf, st =>
    countRows0Go chr cer cs (splitLines (buf ++ c)).2
      ((splitLines (buf ++ c)).1.foldl (countLine chr cer) st)

/-- Function `countRows` from src/unnamed/part_000 (reads the reader directly instead
of going through `makeReaderIterable`). -/
def countRows0 (cs : List (List Char)) (chr cer : Bool) : Nat :=
  countRows0Go chr cer cs [] (0, true)

/-- The loop of `chunk` from the second implementation
(src/unnamed/part_000 lines 87-144), with the buffer flush and the final
yield inlined in the done branch. -/
def chunkBlocks0Go (k : Int) (ier : Bool) : List (List Char) → List Char → ChunkSt → List Block
  | [], buf, st => chunkFinal (chunkFlush ier buf st)
  | c :: cs, buf, st =>
    chunkBlocks0Go k ier cs (splitLines (buf ++ c)).2
      ((splitLines (buf ++ c)).1.foldl (chunkLine k ier) st)

/-- Function `chunk` from src/unnamed/part_000, as the sequence of blocks it yields. -/
def chunkBlocks0 (cs : List (List Char)) (k : Int) (ier : Bool) : List Block :=
  chunkBlocks0Go k ier cs [] (none, [], [])

/-- Modelled from the spec: the abstract pull-based byte source of section 6,
exposing "request next chunk or end-of-input" and "release/close".  `chunks`
are the chunks still to be delivered and `released` records whether the
release/close operation has ever been invoked.  The release operation itself
is absent from src/ (no caller in either implementation ever releases). -/
structure Reader where
  chunks : List (List Char)
  released : Bool

/-- Modelled from the spec: the release/close operation of the chunk source. -/
def Reader.release (r : Reader) : Reader :=
  { r with released := true }

/-- Draining loop of `makeReaderIterable` (src/index.js lines 13-23): read
until done, yielding every value; the reader is returned so that its release
state after the loop is observable.  The source contains no release call, so
the reader state is threaded unchanged. -/
def makeReaderIterableGo (released : Bool) : List (List Char) → List (List Char) × Reader
  | [] => ([], ⟨[], released⟩)
  | c :: cs => ((c :: (makeReaderIterableGo released cs).1), (makeReaderIterableGo released cs).2)

/-- Function `makeReaderIterable`: the sequence of values the async generator yields,
together with the reader as left behind at completion. -/
def makeReaderIterable (r : Reader) : List (List Char) × Reader :=
  makeReaderIterableGo r.released r.chunks

/-- Function `countRows` run against the reader model: the returned count and the
reader as left behind when the returned promise resolves. -/
def countRowsR (r : Reader) (chr cer : Bool) : Nat × Reader :=
  (countRows (makeReaderIterable r).1 chr cer, (makeReaderIterable r).2)

/-- Function `chunk` run to completion against the reader model: the yielded blocks
and the reader as left behind when the generator finishes. -/
def chunkR (r : Reader) (k : Int) (ier : Bool) : List Block × Reader :=
  (chunkBlocks (makeReaderIterable r).1 k ier, (makeReaderIterable r).2)

/-- The counting transition on a retained line (the body of `countLine` once
the `!isEmpty || countEmptyRows` guard has passed): the first retained line
fills the header slot and is counted iff `countHeaderRow`; every later
retained line is counted. -/
def countCore (chr : Bool) (st : Nat × Bool) (_t : List Char) : Nat × Bool :=
  if st.2 then ((if chr then st.1 + 1 else st.1), false)
  else (st.1 + 1, st.2)

/-- The grouping transition on a retained trimmed line (the body of
`chunkLine` once the skip guard has passed). -/
def chunkCore (k : Int) (st : ChunkSt) (t : List Char) : ChunkSt :=
  match st with
  | (none, cur, out) => (some t, cur, out)
  | (some h, cur, out) =>
    let cur' := cur ++ [t]
    if (cur'.length : Int) = k then (some h, [], out ++ [(h, cur')])
    else (some h, cur', out)

/-! ### Properties of the line framer -/

theorem splitLines_no_newline {l : List Char} (h : '\n' ∉ l) :
    splitLines l = ([], l) := by
  induction l with
  | nil => rfl
  | cons c rest ih =>
    have hc : ¬ c = '\n' := fun hc => h (hc ▸ List.mem_cons_self c rest)
    have hr : '\n' ∉ rest := fun hm => h (List.mem_cons_of_mem c hm)
    simp [splitLines, hc, ih hr, consLine]

theorem splitLines_snd_no_newline (l : List Char) : '\n' ∉ (splitLines l).2 := by
  induction l with
  | nil => simp [splitLines]
  | cons c rest ih =>
    by_cases hc : c = '\n'
    · simpa [splitLines, hc] using ih
    · rcases hrec : splitLines rest with ⟨ls, buf⟩
      rcases ls with _ | ⟨l0, ls⟩
      · simp only [splitLines, hc, if_false, hrec, consLine]
        intro hm
        rcases List.mem_cons.mp hm with h1 | h2
        · exact hc h1.symm
        · exact ih (by simpa [hrec] using h2)
      · have h2 : (splitLines (c :: rest)).2 = buf := by
          simp [splitLines, hc, hrec, consLine]
        rw [h2]
        rw [hrec] at ih
        exact ih

theorem splitLines_append (x y : List Char) :
    splitLines (x ++ y) =
      ((splitLines x).1 ++ (splitLines ((splitLines x).2 ++ y)).1,
       (splitLines ((splitLines x).2 ++ y)).2) := by
  induction x with
  | nil => simp [splitLines]
  | cons c x ih =>
    by_cases hc : c = '\n'
    · subst hc
      simp [splitLines, ih]
    · rcases hSx : splitLines x with ⟨lx, bx⟩
      rcases lx with _ | ⟨l0, ls⟩
      · have : splitLines (c :: x) = ([], c :: bx) := by
          simp [splitLines, hc, hSx, consLine]
        rw [List.cons_append, splitLines, if_neg hc, ih, hSx, this]
        simp only [List.nil_append, List.cons_append]
        rw [splitLines, if_neg hc]
      · have : splitLines (c :: x) = ((c :: l0) :: ls, bx) := by
          simp [splitLines, hc, hSx, consLine]
        rw [List.cons_append, splitLines, if_neg hc, ih, hSx, this]
        simp [consLine]

theorem splitLines_line_sep {l : List Char} (h : '\n' ∉ l) (s : List Char) :
    splitLines (l ++ '\n' :: s) = (l :: (splitLines s).1, (splitLines s).2) := by
  induction l with
  | nil => simp [splitLines]
  | cons c rest ih =>
    have hc : ¬ c = '\n' := fun hc => h (hc ▸ List.mem_cons_self c rest)
    have hr : '\n' ∉ rest := fun hm => h (List.mem_cons_of_mem c hm)
    simp [splitLines, hc, ih hr, consLine]

theorem framer_foldl {σ : Type} (f : σ → List Char → σ) (cs : List (List Char)) :
    ∀ (buf : List Char) (s : σ), '\n' ∉ buf →
      cs.foldl (framerStep f) (buf, s) =
        ((splitLines (buf ++ cs.flatten)).2,
         (splitLines (buf ++ cs.flatten)).1.foldl f s) := by
  induction cs with
  | nil =>
    intro buf s hbuf
    simp [splitLines_no_newline hbuf]
  | cons c cs ih =>
    intro buf s hbuf
    rw [List.foldl_cons]
    show cs.foldl (framerStep f)
        ((splitLines (buf ++ c)).2, (splitLines (buf ++ c)).1.foldl f s) = _
    rw [ih _ _ (splitLines_snd_no_newline (buf ++ c))]
    rw [List.flatten_cons, show buf ++ (c ++ cs.flatten) = (buf ++ c) ++ cs.flatten by
      simp [List.append_assoc]]
    rw [splitLines_append (buf ++ c) cs.flatten, List.foldl_append]

/-! ### Reduction of both pipelines to the line-level cores -/

theorem keptTrim_append (opt : Bool) (a b : List (List Char)) :
    keptTrim opt (a ++ b) = keptTrim opt a ++ keptTrim opt b := by
  simp [keptTrim, List.filter_append]

theorem countLine_eq (chr cer : Bool) (st : Nat × Bool) (l : List Char) :
    countLine chr cer st l = if kept cer l then countCore chr st (trim l) else st := rfl

theorem foldl_countLine (chr cer : Bool) (ls : List (List Char)) :
    ∀ st : Nat × Bool,
      ls.foldl (countLine chr cer) st = (keptTrim cer ls).foldl (countCore chr) st := by
  induction ls with
  | nil => intro st; rfl
  | cons l ls ih =>
    intro st
    rw [List.foldl_cons, ih, countLine_eq]
    cases hk : kept cer l
    · simp [keptTrim, List.filter_cons, hk]
    · simp [keptTrim, List.filter_cons, hk]

theorem countFlush_eq (chr cer : Bool) (buf : List Char) (st : Nat × Bool) :
    countFlush chr cer (buf, st)
      = ((keptTrim cer (flushLines buf)).foldl (countCore chr) st).1 := by
  rcases st with ⟨n, fr⟩
  rcases buf with _ | ⟨c, b⟩
  · rfl
  · cases hk : kept cer (c :: b) <;> simp only [kept] at hk <;>
      cases fr <;> cases chr <;>
        simp [countFlush, keptTrim, flushLines, List.filter_cons, kept, hk, countCore]

theorem countRows_eq_core (cs : List (List Char)) (chr cer : Bool) :
    countRows cs chr cer = ((keptRows cs cer).foldl (countCore chr) (0, true)).1 := by
  unfold countRows
  rw [framer_foldl _ _ _ _ (by simp)]
  rw [List.nil_append, foldl_countLine, countFlush_eq]
  rw [keptRows, logicalLines, keptTrim_append, List.foldl_append]

theorem chunkLine_eq (k : Int) (ier : Bool) (st : ChunkSt) (l : List Char) :
    chunkLine k ier st l = if kept ier l then chunkCore k st (trim l) else st := by
  rcases st with ⟨_ | h, cur, out⟩ <;> cases hb : (trim l).isEmpty <;> cases ier <;>
    simp [chunkLine, chunkCore, kept, hb]

theorem foldl_chunkLine (k : Int) (ier : Bool) (ls : List (List Char)) :
    ∀ st : ChunkSt,
      ls.foldl (chunkLine k ier) st = (keptTrim ier ls).foldl (chunkCore k) st := by
  induction ls with
  | nil => intro st; rfl
  | cons l ls ih =>
    intro st
    rw [List.foldl_cons, ih, chunkLine_eq]
    cases hk : kept ier l
    · simp [keptTrim, List.filter_cons, hk]
    · simp [keptTrim, List.filter_cons, hk]

theorem chunkCore_fst_ne_none (k : Int) (st : ChunkSt) (t : List Char) :
    (chunkCore k st t).1 ≠ none := by
  rcases st with ⟨_ | h, cur, out⟩
  · simp [chunkCore]
  · simp only [chunkCore]
    split <;> simp

theorem chunkCore_fold_inv (k : Int) (ts : List (List Char)) :
    ∀ st : ChunkSt, (st.1 = none → st.2.1 = []) →
      ((ts.foldl (chunkCore k) st).1 = none → (ts.foldl (chunkCore k) st).2.1 = []) := by
  induction ts with
  | nil => intro st h; exact h
  | cons t ts ih =>
    intro st h
    rw [List.foldl_cons]
    exact ih _ (fun hnone => absurd hnone (chunkCore_fst_ne_none k st t))

theorem chunk_flush_final_eq (k : Int) (ier : Bool) (buf : List Char) (st : ChunkSt)
    (hinv : st.1 = none → st.2.1 = []) :
    chunkFinal (chunkFlush ier buf st)
      = chunkFinal ((keptTrim ier (flushLines buf)).foldl (chunkCore k) st) := by
  rcases st with ⟨hd, cur, out⟩
  rcases buf with _ | ⟨c, b⟩
  · rfl
  · cases hk : kept ier (c :: b) <;> simp only [kept] at hk
    · rcases hd with _ | h <;>
        simp [chunkFlush, chunkFinal, keptTrim, List.filter_cons, kept, hk, flushLines]
    · rcases hd with _ | h
      · have hcur : cur = [] := hinv rfl
        subst hcur
        simp [chunkFlush, chunkFinal, keptTrim, List.filter_cons, kept, hk, flushLines,
          chunkCore]
      · by_cases hsz : ((cur.length : Int) + 1 = k)
        · simp [chunkFlush, chunkFinal, keptTrim, List.filter_cons, kept, hk, flushLines,
            chunkCore, hsz]
        · simp [chunkFlush, chunkFinal, keptTrim, List.filter_cons, kept, hk, flushLines,
            chunkCore, hsz]

theorem chunkBlocks_eq_core (cs : List (List Char)) (k : Int) (ier : Bool) :
    chunkBlocks cs k ier
      = chunkFinal ((keptRows cs ier).foldl (chunkCore k) (none, [], [])) := by
  unfold chunkBlocks
  rw [framer_foldl _ _ _ _ (by simp)]
  simp only [List.nil_append]
  rw [foldl_chunkLine]
  rw [chunk_flush_final_eq k ier _ _
    (chunkCore_fold_inv k _ (none, [], []) (fun _ => rfl))]
  rw [keptRows, logicalLines, keptTrim_append, List.foldl_append]

/-! ### Behaviour of the counting core -/

theorem countCore_foldl_notFirst (chr : Bool) (ts : List (List Char)) :
    ∀ n : Nat, ts.foldl (countCore chr) (n, false) = (n + ts.length, false) := by
  induction ts with
  | nil => intro n; simp
  | cons t ts ih =>
    intro n
    rw [List.foldl_cons]
    show ts.foldl (countCore chr) (n + 1, false) = _
    rw [ih]
    congr 1
    simp only [List.length_cons]
    omega

theorem countCore_foldl_first (chr : Bool) (ts : List (List Char)) (n : Nat) :
    (ts.foldl (countCore chr) (n, true)).1
      = if ts.isEmpty then n else (if chr then n + 1 else n) + (ts.length - 1) := by
  cases ts with
  | nil => simp
  | cons t ts =>
    rw [List.foldl_cons]
    show (ts.foldl (countCore chr) ((if chr then n + 1 else n), false)).1 = _
    rw [countCore_foldl_notFirst]
    simp only [List.isEmpty_cons, List.length_cons]
    simp

/-! ### Behaviour of the grouping core -/

theorem chunkCore_some (k : Int) (h t : List Char) (cur : List (List Char))
    (out : List Block) :
    chunkCore k (some h, cur, out) t
      = if ((cur ++ [t]).length : Int) = k then (some h, [], out ++ [(h, cur ++ [t])])
        else (some h, cur ++ [t], out) := rfl

theorem chunkCore_fold_some_fst (k : Int) (ts : List (List Char)) :
    ∀ (h : List Char) (cur : List (List Char)) (out : List Block),
      (ts.foldl (chunkCore k) (some h, cur, out)).1 = some h := by
  induction ts with
  | nil => intro h cur out; rfl
  | cons t ts ih =>
    intro h cur out
    rw [List.foldl_cons, chunkCore_some]
    by_cases hsz : (((cur ++ [t]).length : Int) = k)
    · rw [if_pos hsz]
      exact ih h [] (out ++ [(h, cur ++ [t])])
    · rw [if_neg hsz]
      exact ih h (cur ++ [t]) out

theorem chunkCore_fold_some_header (k : Int) (ts : List (List Char)) :
    ∀ (h : List Char) (cur : List (List Char)) (out : List Block),
      (∀ b ∈ out, b.1 = h) →
      ∀ b ∈ (ts.foldl (chunkCore k) (some h, cur, out)).2.2, b.1 = h := by
  induction ts with
  | nil => intro h cur out hout; exact hout
  | cons t ts ih =>
    intro h cur out hout
    rw [List.foldl_cons, chunkCore_some]
    by_cases hsz : (((cur ++ [t]).length : Int) = k)
    · rw [if_pos hsz]
      refine ih h [] (out ++ [(h, cur ++ [t])]) ?_
      intro b hb
      rcases List.mem_append.mp hb with h1 | h2
      · exact hout b h1
      · rw [List.mem_singleton.mp h2]
    · rw [if_neg hsz]
      exact ih h (cur ++ [t]) out hout

theorem chunkCore_fold_some_rows (k : Int) (ts : List (List Char)) :
    ∀ (h : List Char) (cur : List (List Char)) (out : List Block),
      (((ts.foldl (chunkCore k) (some h, cur, out)).2.2.map Prod.snd).flatten
          ++ (ts.foldl (chunkCore k) (some h, cur, out)).2.1)
        = ((out.map Prod.snd).flatten ++ cur) ++ ts := by
  induction ts with
  | nil => intro h cur out; simp
  | cons t ts ih =>
    intro h cur out
    rw [List.foldl_cons, chunkCore_some]
    by_cases hsz : (((cur ++ [t]).length : Int) = k)
    · rw [if_pos hsz, ih]
      simp [List.append_assoc]
    · rw [if_neg hsz, ih]
      simp [List.append_assoc]

theorem chunkCore_fold_some_sizes (k : Int) (ts : List (List Char)) :
    ∀ (h : List Char) (cur : List (List Char)) (out : List Block),
      ((cur.length : Int) < k) → (∀ b ∈ out, (b.2.length : Int) = k) →
      (((ts.foldl (chunkCore k) (some h, cur, out)).2.1.length : Int) < k ∧
        ∀ b ∈ (ts.foldl (chunkCore k) (some h, cur, out)).2.2, (b.2.length : Int) = k) := by
  induction ts with
  | nil => intro h cur out hc ho; exact ⟨hc, ho⟩
  | cons t ts ih =>
    intro h cur out hc ho
    rw [List.foldl_cons, chunkCore_some]
    by_cases hsz : (((cur ++ [t]).length : Int) = k)
    · rw [if_pos hsz]
      refine ih h [] (out ++ [(h, cur ++ [t])]) ?_ ?_
      · simpa using lt_of_le_of_lt (by omega : (0 : Int) ≤ (cur.length : Int)) hc
      · intro b hb
        rcases List.mem_append.mp hb with h1 | h2
        · exact ho b h1
        · rw [List.mem_singleton.mp h2]
          exact hsz
    · rw [if_neg hsz]
      refine ih h (cur ++ [t]) out ?_ ho
      have hlen : ((cur ++ [t]).length : Int) = (cur.length : Int) + 1 := by
        simp
      omega

theorem chunkCore_fold_some_nonpos (k : Int) (hk : k ≤ 0) (ts : List (List Char)) :
    ∀ (h : List Char) (cur : List (List Char)) (out : List Block),
      ts.foldl (chunkCore k) (some h, cur, out) = (some h, cur ++ ts, out) := by
  induction ts with
  | nil => intro h cur out; simp
  | cons t ts ih =>
    intro h cur out
    have hsz : ¬ (((cur ++ [t]).length : Int) = k) := by
      have hlen : ((cur ++ [t]).length : Int) = (cur.length : Int) + 1 := by simp
      omega
    rw [List.foldl_cons, chunkCore_some, if_neg hsz, ih]
    simp

/-! ### Auxiliary facts about blank and replicated-newline lines -/

theorem splitLines_replicate (j : Nat) :
    splitLines (List.replicate j '\n') = (List.replicate j [], []) := by
  induction j with
  | zero => rfl
  | succ j ih => simp [splitLines, ih, List.replicate_succ]

theorem kept_false_nil : kept false ([] : List Char) = false := rfl

theorem keptTrim_false_replicate_nil (j : Nat) :
    keptTrim false (List.replicate j ([] : List Char)) = [] := by
  induction j with
  | zero => rfl
  | succ j ih =>
    rw [keptTrim] at ih ⊢
    simp [List.replicate_succ, List.filter_cons, kept_false_nil, ih]

theorem keptTrim_false_line_vs_flush (b : List Char) (j : Nat) :
    keptTrim false (b :: List.replicate j ([] : List Char))
      = keptTrim false (flushLines b) := by
  have hrep := keptTrim_false_replicate_nil j
  rw [keptTrim] at hrep
  rcases b with _ | ⟨c, b⟩
  · rw [show flushLines [] = [] from rfl]
    simp [keptTrim, List.filter_cons, kept_false_nil, hrep]
  · rw [show flushLines (c :: b) = [c :: b] from rfl]
    cases hk : kept false (c :: b) <;>
      simp [keptTrim, List.filter_cons, hk, hrep]

/-! ### The claims -/

/-- C1: with default options (`countHeaderRow = false`, `countEmptyRows =
false`), `countRows` returns exactly the number of logical lines whose
trimmed form is non-blank that occur after the first such line: the header
and all blank lines are excluded, and an empty input yields 0 (the
subtraction is truncated at 0). -/
theorem countRows_default_counts_nonblank_after_header (cs : List (List Char)) :
    countRows cs false false
      = ((logicalLines cs.flatten).filter (fun l => !(trim l).isEmpty)).length - 1 := by
  rw [countRows_eq_core]
  have hf : kept false = (fun l => !(trim l).isEmpty) := by
    funext l
    simp [kept]
  have hk : keptRows cs false
      = ((logicalLines cs.flatten).filter (fun l => !(trim l).isEmpty)).map trim := by
    rw [keptRows, keptTrim, hf]
  rw [hk, countCore_foldl_first]
  by_cases hL : ((logicalLines cs.flatten).filter (fun l => !(trim l).isEmpty)) = []
  · simp [hL]
  · simp [hL, List.length_map]

/-- C2: splitting the same logical content into chunks in two different ways
never changes the result: `countRows` returns the same count and `chunk`
yields the same block sequence and the same rendered strings, for every
option setting. -/
theorem fragmentation_invariance (cs1 cs2 : List (List Char))
    (h : cs1.flatten = cs2.flatten) (chr cer : Bool) (k : Int) (ier : Bool) :
    countRows cs1 chr cer = countRows cs2 chr cer ∧
      chunkBlocks cs1 k ier = chunkBlocks cs2 k ier ∧
      chunkStrings cs1 k ier = chunkStrings cs2 k ier := by
  have hb : chunkBlocks cs1 k ier = chunkBlocks cs2 k ier := by
    rw [chunkBlocks_eq_core, chunkBlocks_eq_core, keptRows, keptRows, h]
  refine ⟨?_, hb, ?_⟩
  · rw [countRows_eq_core, countRows_eq_core, keptRows, keptRows, h]
  · rw [chunkStrings, chunkStrings, hb]

/-- C2 witness: one chunk versus one chunk per byte. -/
theorem fragmentation_invariance_witness :
    countRows [['a', '\n', 'b']] false false
        = countRows [['a'], ['\n'], ['b']] false false ∧
      chunkBlocks [['a', '\n', 'b']] 1 false
        = chunkBlocks [['a'], ['\n'], ['b']] 1 false ∧
      chunkStrings [['a', '\n', 'b']] 1 false
        = chunkStrings [['a'], ['\n'], ['b']] 1 false :=
  fragmentation_invariance [['a', '\n', 'b']] [['a'], ['\n'], ['b']] (by rfl)
    false false 1 false

/-- C3 counterexample: with `countHeaderRow = true` and `countEmptyRows =
true`, an input consisting of one pre-header blank line is counted
(`countRows` returns 1), although the input has no non-blank line at all, so
the claim that a pre-header blank line never increments the total is false. -/
theorem preheader_blank_increments_cex :
    countRows [['\n']] true true = 1 ∧
      ((logicalLines (List.flatten [['\n']])).filter (fun l => !(trim l).isEmpty)) = [] := by
  constructor
  · rfl
  · rfl

/-- C3 amended: when `countEmptyRows = false` (for either value of
`countHeaderRow`), a blank line at the start of the input is discarded
entirely: prepending it leaves the count unchanged, so it neither increments
the total nor consumes the header position.  When `countEmptyRows = true`
the original claim fails: the first line, even blank, consumes the header
position and is counted iff `countHeaderRow`. -/
theorem preheader_blank_discarded_without_countEmptyRows (b : List Char)
    (cs : List (List Char)) (chr : Bool)
    (hb : (trim b).isEmpty = true) (hnl : '\n' ∉ b) :
    countRows ((b ++ ['\n']) :: cs) chr false = countRows cs chr false := by
  rw [countRows_eq_core, countRows_eq_core]
  have hflat : ((b ++ ['\n']) :: cs).flatten = b ++ '\n' :: cs.flatten := by
    simp
  have hK : keptRows ((b ++ ['\n']) :: cs) false = keptRows cs false := by
    rw [keptRows, keptRows, logicalLines, logicalLines, hflat,
      splitLines_line_sep hnl]
    show keptTrim false ((b :: (splitLines cs.flatten).1) ++ _) = _
    rw [List.cons_append, keptTrim, List.filter_cons]
    simp [kept, hb, keptTrim]
  rw [hK]

/-- C3 witness: a blank space-only line before the header. -/
theorem preheader_blank_discarded_without_countEmptyRows_witness :
    (trim [' ']).isEmpty = true ∧
      countRows [[' ', '\n'], ['A']] true false = countRows [['A']] true false :=
  ⟨by decide,
    preheader_blank_discarded_without_countEmptyRows [' '] [['A']] true
      (by decide) (by decide)⟩

/-- C4 counterexample: with `includeEmptyRows = true` a leading blank line
is not skipped for header detection — it becomes the (empty) header.  On
input `"\nA"` the single emitted block has header `""`, while the first line
whose trimmed form is non-blank is `"A"`. -/
theorem leading_blank_becomes_header_cex :
    (chunkBlocks [['\n', 'A']] 100 true).map Prod.fst = [[]] ∧
      ((logicalLines (List.flatten [['\n', 'A']])).filter
          (fun l => !(trim l).isEmpty)).head? = some ['A'] := by
  constructor
  · rfl
  · rfl

/-- C4 amended: the header stored and prepended to every emitted block is
the trimmed form of the first retained line: with `includeEmptyRows = false`
that is the first line whose trimmed form is non-blank, but with
`includeEmptyRows = true` it is the first line of the input even when blank
(a leading blank line becomes the empty header). -/
theorem chunk_header_is_first_kept_line (cs : List (List Char)) (k : Int)
    (ier : Bool) (b : Block) (hb : b ∈ chunkBlocks cs k ier) :
    some b.1 = ((logicalLines cs.flatten).filter (kept ier)).head?.map trim := by
  rw [chunkBlocks_eq_core] at hb
  have hhd : ((logicalLines cs.flatten).filter (kept ier)).head?.map trim
      = (keptRows cs ier).head? := by
    rw [keptRows, keptTrim, List.head?_map]
  rw [hhd]
  rcases hK : keptRows cs ier with _ | ⟨h, rs⟩
  · rw [hK] at hb
    simp [chunkFinal] at hb
  · rw [hK] at hb
    rw [List.foldl_cons, show chunkCore k (none, [], []) h = (some h, [], []) from rfl] at hb
    have hfst := chunkCore_fold_some_fst k rs h [] []
    have hhead := chunkCore_fold_some_header k rs h [] [] (by intro b hb; simp at hb)
    rcases hfold : rs.foldl (chunkCore k) (some h, [], []) with ⟨hd, cur2, out2⟩
    rw [hfold] at hb hfst hhead
    simp only at hfst
    subst hfst
    have hb1 : b.1 = h := by
      simp only [chunkFinal] at hb
      by_cases hc2 : 0 < cur2.length
      · rw [if_pos hc2] at hb
        rcases List.mem_append.mp hb with h1 | h2
        · exact hhead b h1
        · rw [List.mem_singleton.mp h2]
      · rw [if_neg hc2] at hb
        exact hhead b hb
    rw [hb1]
    rfl

/-- C4 witness: a concrete block of a concrete run. -/
theorem chunk_header_is_first_kept_line_witness :
    some (['A'] : List Char)
      = ((logicalLines (List.flatten [['A', '\n', 'B']])).filter
          (kept false)).head?.map trim :=
  chunk_header_is_first_kept_line [['A', '\n', 'B']] 1 false (['A'], [['B']])
    (by decide)

/-- C5: for every positive `chunkSize` `k`, every block yielded by `chunk`
is non-empty and holds at most `k` rows after the header, and every block
except possibly the last holds exactly `k` rows (groups are emitted exactly
on reaching size `k`; a non-empty final partial group is flushed at
end-of-input when a header exists). -/
theorem chunk_block_size_bounds (cs : List (List Char)) (k : Int) (ier : Bool)
    (hk : 0 < k) :
    (∀ b ∈ chunkBlocks cs k ier, b.2 ≠ [] ∧ (b.2.length : Int) ≤ k) ∧
      (∀ b ∈ (chunkBlocks cs k ier).dropLast, (b.2.length : Int) = k) := by
  rw [chunkBlocks_eq_core]
  rcases hK : keptRows cs ier with _ | ⟨h, rs⟩
  · refine ⟨?_, ?_⟩ <;> intro b hb <;> simp [chunkFinal] at hb
  · rw [List.foldl_cons, show chunkCore k (none, [], []) h = (some h, [], []) from rfl]
    have hsizes := chunkCore_fold_some_sizes k rs h [] []
      (by simpa using hk) (by intro b hb; simp at hb)
    rcases hfold : rs.foldl (chunkCore k) (some h, [], []) with ⟨hd, cur2, out2⟩
    rw [hfold] at hsizes
    obtain ⟨hcur, hout⟩ := hsizes
    simp only at hcur hout
    by_cases hc2 : 0 < cur2.length
    · have hfin : chunkFinal (hd, cur2, out2) = out2 ++ [(h, cur2)] := by
        have hfst := chunkCore_fold_some_fst k rs h [] []
        rw [hfold] at hfst
        simp only at hfst
        subst hfst
        simp [chunkFinal, hc2]
      rw [hfin]
      refine ⟨?_, ?_⟩
      · intro b hb
        rcases List.mem_append.mp hb with h1 | h2
        · have hlen := hout b h1
          refine ⟨?_, le_of_eq hlen⟩
          intro hnil
          rw [hnil] at hlen
          simp at hlen
          omega
        · rw [List.mem_singleton.mp h2]
          refine ⟨?_, le_of_lt hcur⟩
          intro hnil
          have hnil2 : cur2 = [] := hnil
          rw [hnil2] at hc2
          simp at hc2
      · intro b hb
        rw [List.dropLast_concat] at hb
        exact hout b hb
    · have hfst := chunkCore_fold_some_fst k rs h [] []
      rw [hfold] at hfst
      simp only at hfst
      subst hfst
      have hfin : chunkFinal (some h, cur2, out2) = out2 := by
        simp [chunkFinal, hc2]
      rw [hfin]
      refine ⟨?_, ?_⟩
      · intro b hb
        have hlen := hout b hb
        refine ⟨?_, le_of_eq hlen⟩
        intro hnil
        rw [hnil] at hlen
        simp at hlen
        omega
      · intro b hb
        exact hout b (List.dropLast_subset out2 hb)

/-- C5 witness at a concrete run with `chunkSize = 2`. -/
theorem chunk_block_size_bounds_witness :
    (∀ b ∈ chunkBlocks [['h', '\n', 'a', '\n', 'b', '\n', 'c']] 2 false,
        b.2 ≠ [] ∧ (b.2.length : Int) ≤ 2) ∧
      (∀ b ∈ (chunkBlocks [['h', '\n', 'a', '\n', 'b', '\n', 'c']] 2 false).dropLast,
        (b.2.length : Int) = 2) :=
  chunk_block_size_bounds [['h', '\n', 'a', '\n', 'b', '\n', 'c']] 2 false
    (by decide)

/-- C6: for every `chunkSize`, concatenating the row lists of all blocks
yielded by `chunk` (headers excluded) gives exactly the retained trimmed
rows after the header slot, and `countRows` with `countEmptyRows` equal to
`chunk`'s `includeEmptyRows` counts exactly those rows. -/
theorem chunk_rows_match_countRows (cs : List (List Char)) (k : Int) (ier : Bool) :
    (((chunkBlocks cs k ier).map Prod.snd).flatten = (keptRows cs ier).tail) ∧
      countRows cs false ier = (keptRows cs ier).tail.length := by
  refine ⟨?_, ?_⟩
  · rw [chunkBlocks_eq_core]
    rcases hK : keptRows cs ier with _ | ⟨h, rs⟩
    · simp [chunkFinal]
    · rw [List.foldl_cons, show chunkCore k (none, [], []) h = (some h, [], []) from rfl]
      have hrows := chunkCore_fold_some_rows k rs h [] []
      rcases hfold : rs.foldl (chunkCore k) (some h, [], []) with ⟨hd, cur2, out2⟩
      rw [hfold] at hrows
      simp only [List.map_nil, List.flatten_nil, List.nil_append] at hrows
      have hfst := chunkCore_fold_some_fst k rs h [] []
      rw [hfold] at hfst
      simp only at hfst
      subst hfst
      by_cases hc2 : 0 < cur2.length
      · have hfin : chunkFinal (some h, cur2, out2) = out2 ++ [(h, cur2)] := by
          simp [chunkFinal, hc2]
        rw [hfin]
        simp only [List.tail_cons]
        rw [List.map_append, List.flatten_append]
        simpa using hrows
      · have hcur2 : cur2 = [] := by
          rcases cur2 with _ | ⟨x, cur2⟩
          · rfl
          · simp at hc2
        subst hcur2
        have hfin : chunkFinal (some h, [], out2) = out2 := by
          simp [chunkFinal]
        rw [hfin]
        simp only [List.tail_cons]
        simpa using hrows
  · rw [countRows_eq_core]
    rcases hK : keptRows cs ier with _ | ⟨h, rs⟩
    · rfl
    · rw [List.foldl_cons]
      show (rs.foldl (countCore false) (0, false)).1 = _
      rw [countCore_foldl_notFirst]
      simp

/-- C7 counterexample: with `countEmptyRows = true`, appending trailing
newlines increases the count — `"A\nB"` counts 1 but `"A\nB\n\n"` counts 2
— so the claim is false for that option setting. -/
theorem trailing_newlines_increase_count_cex :
    countRows [['A', '\n', 'B']] false true = 1 ∧
      countRows [['A', '\n', 'B', '\n', '\n']] false true = 2 := by
  refine ⟨?_, ?_⟩
  · rfl
  · rfl

/-- C7 amended: when `countEmptyRows = false` (for either value of
`countHeaderRow`), appending any run of trailing newline characters leaves
the count unchanged (so it never increases it); with `countEmptyRows = true`
the trailing newlines create counted blank lines and the claim fails. -/
theorem trailing_newlines_preserve_count (c : List Char) (m : Nat) (chr : Bool) :
    countRows [c ++ List.replicate m '\n'] chr false = countRows [c] chr false := by
  cases m with
  | zero => simp
  | succ j =>
    rw [countRows_eq_core, countRows_eq_core]
    have hflat1 : List.flatten [c ++ List.replicate (j + 1) '\n']
        = c ++ List.replicate (j + 1) '\n' := by simp
    have hflat2 : List.flatten [c] = c := by simp
    have h1 : logicalLines (c ++ List.replicate (j + 1) '\n')
        = (splitLines c).1
            ++ ((splitLines c).2 :: List.replicate j ([] : List Char)) := by
      rw [logicalLines, splitLines_append c (List.replicate (j + 1) '\n'),
        List.replicate_succ,
        splitLines_line_sep (splitLines_snd_no_newline c),
        splitLines_replicate]
      simp [flushLines]
    have hK : keptRows [c ++ List.replicate (j + 1) '\n'] false = keptRows [c] false := by
      rw [keptRows, keptRows, hflat1, hflat2, h1, logicalLines,
        keptTrim_append, keptTrim_append, keptTrim_false_line_vs_flush]
    rw [hK]

/-- The part_000 counting loop agrees with the foldl-plus-flush form of the
index.js implementation, for any starting buffer and state. -/
theorem countRows0Go_eq_foldl (chr cer : Bool) (cs : List (List Char)) :
    ∀ (buf : List Char) (st : Nat × Bool),
      countRows0Go chr cer cs buf st
        = countFlush chr cer (cs.foldl (framerStep (countLine chr cer)) (buf, st)) := by
  induction cs with
  | nil => intro buf st; rfl
  | cons c cs ih =>
    intro buf st
    rw [List.foldl_cons]
    show countRows0Go chr cer (c :: cs) buf st = _
    rw [countRows0Go]
    exact ih _ _

/-- The part_000 grouping loop agrees with the foldl-plus-flush form of the
index.js implementation, for any starting buffer and state. -/
theorem chunkBlocks0Go_eq_foldl (k : Int) (ier : Bool) (cs : List (List Char)) :
    ∀ (buf : List Char) (st : ChunkSt),
      chunkBlocks0Go k ier cs buf st
        = chunkFinal
            (chunkFlush ier (cs.foldl (framerStep (chunkLine k ier)) (buf, st)).1
              (cs.foldl (framerStep (chunkLine k ier)) (buf, st)).2) := by
  induction cs with
  | nil => intro buf st; rfl
  | cons c cs ih =>
    intro buf st
    rw [List.foldl_cons]
    rw [chunkBlocks0Go]
    exact ih _ _

/-- C8: the two near-duplicate implementations are extensionally equal: for
every chunk sequence and every option setting, `countRows` of src/index.js
and of src/unnamed/part_000 return the same number, and the two `chunk`
implementations yield the identical block sequence, hence identical rendered
strings. -/
theorem implementations_extensionally_equal (cs : List (List Char))
    (chr cer : Bool) (k : Int) (ier : Bool) :
    countRows cs chr cer = countRows0 cs chr cer ∧
      chunkBlocks cs k ier = chunkBlocks0 cs k ier ∧
      chunkStrings cs k ier = (chunkBlocks0 cs k ier).map renderBlock := by
  have hb : chunkBlocks cs k ier = chunkBlocks0 cs k ier := by
    rw [chunkBlocks0, chunkBlocks0Go_eq_foldl]
    rfl
  refine ⟨?_, hb, ?_⟩
  · rw [countRows0, countRows0Go_eq_foldl]
    rfl
  · rw [chunkStrings, hb]

/-- C9: the claim that the reader is released/closed on every exit path is
contradicted by the code: neither implementation ever invokes the release
operation, so after a complete, error-free run of either operation the
reader is still unreleased (`released = false`). -/
theorem reader_never_released (cs : List (List Char)) (chr cer : Bool)
    (k : Int) (ier : Bool) :
    (countRowsR ⟨cs, false⟩ chr cer).2.released = false ∧
      (chunkR ⟨cs, false⟩ k ier).2.released = false := by
  have hgo : ∀ (rel : Bool) (l : List (List Char)),
      ((makeReaderIterableGo rel l).2).released = rel := by
    intro rel l
    induction l with
    | nil => rfl
    | cons c l ih => exact ih
  exact ⟨hgo false cs, hgo false cs⟩

/-- C10: for every `chunkSize` that is zero or negative, the group-size test
never fires while consuming the stream, so `chunk` yields no block until
end-of-input, where it yields exactly one block holding the header and all
accumulated rows when a header exists and at least one row was accumulated,
and no block otherwise. -/
theorem chunk_nonpos_chunkSize_single_block (cs : List (List Char)) (k : Int)
    (ier : Bool) (hk : k ≤ 0) :
    chunkBlocks cs k ier
      = match keptRows cs ier with
        | [] => []
        | [_] => []
        | h :: r :: rs => [(h, r :: rs)] := by
  rw [chunkBlocks_eq_core]
  rcases hK : keptRows cs ier with _ | ⟨h, _ | ⟨r, rs⟩⟩
  · rfl
  · rfl
  · rw [List.foldl_cons, show chunkCore k (none, [], []) h = (some h, [], []) from rfl,
      chunkCore_fold_some_nonpos k hk]
    simp [chunkFinal]

/-- C10 witness at `chunkSize = 0`. -/
theorem chunk_nonpos_chunkSize_single_block_witness :
    chunkBlocks [['A', '\n', 'B', '\n', 'C']] 0 false = [(['A'], [['B'], ['C']])] := by
  rw [chunk_nonpos_chunkSize_single_block [['A', '\n', 'B', '\n', 'C']] 0 false
    (by decide)]
  rfl

end CsvTools
